import Mathlib

/-!
Verification of the encryptedfs repository against its specification.

The repository's `src/` holds the CLI entry point (`src/main.rs`); the
encryption and storage engine (cipher engine, key manager, chunked object
store) lives in the library crate, whose sources are not part of `src/`.
Definitions for the engine are therefore modelled from the specification
(each such definition says so in its doc comment); the CLI definitions are
translated directly from `src/main.rs`.

Bytes are modelled as natural numbers, byte sequences as `List ℕ`.
-/

namespace EncFs

/-- Modelled from the spec: the Cipher Engine keystream. The concrete
stream cipher (ChaCha20 or AES-GCM keystream) is not in `src/`; the model
uses an injective pairing of (key, nonce, position) as an idealized
pseudorandom keystream. -/
def ks (key nonce i : ℕ) : ℕ := Nat.pair key (Nat.pair nonce i)

/-- Modelled from the spec: stream encryption of a byte list starting at
keystream position `i`. -/
def encFrom (key nonce : ℕ) : ℕ → List ℕ → List ℕ
  | _, [] => []
  | i, b :: r => (b + ks key nonce i) :: encFrom key nonce (i + 1) r

/-- Modelled from the spec: stream decryption, the inverse of `encFrom`. -/
def decFrom (key nonce : ℕ) : ℕ → List ℕ → List ℕ
  | _, [] => []
  | i, c :: r => (c - ks key nonce i) :: decFrom key nonce (i + 1) r

/-- Injective encoding of a byte list into a single natural number,
used to model a perfectly binding authentication tag. -/
def encodeList : List ℕ → ℕ
  | [] => 0
  | a :: r => Nat.pair a (encodeList r) + 1

/-- Modelled from the spec: the authentication tag over (key, nonce,
ciphertext). The spec requires that any tag mismatch is detected; the
model makes the tag perfectly binding via injective pairing. -/
def mac (key nonce : ℕ) (ct : List ℕ) : ℕ :=
  Nat.pair key (Nat.pair nonce (encodeList ct))

/-- Modelled from the spec: `encrypt(key, nonce, plaintext) -> (ciphertext, tag)`. -/
def encrypt (key nonce : ℕ) (pt : List ℕ) : List ℕ × ℕ :=
  (encFrom key nonce 0 pt, mac key nonce (encFrom key nonce 0 pt))

/-- Modelled from the spec: `decrypt(key, nonce, ciphertext, tag) ->
plaintext | IntegrityError`; `none` is the IntegrityError outcome and the
operation fails closed (no plaintext is produced on tag mismatch). -/
def decrypt (key nonce : ℕ) (ct : List ℕ) (tag : ℕ) : Option (List ℕ) :=
  if tag = mac key nonce ct then some (decFrom key nonce 0 ct) else none

/-- Modelled from the spec: the closed set of cipher algorithms (a
ChaCha20-Poly1305 style cipher, default, and an AES-256-GCM style cipher).
The `Cipher` enum itself lives in the library crate, not in `src/`. -/
inductive Cipher
  | chaCha20
  | aes256Gcm
deriving DecidableEq

/-- Debug-format names of the cipher variants, as iterated by
`Cipher::iter()` in `src/main.rs`. -/
def Cipher.names : List (List Char) := ["ChaCha20".data, "Aes256Gcm".data]

/-- Modelled from the spec: `Cipher::from_str`; the default CLI value
"ChaCha20" parses, unknown strings do not. -/
def Cipher.fromStr (s : String) : Option Cipher :=
  if s = "ChaCha20" then some .chaCha20
  else if s = "Aes256Gcm" then some .aes256Gcm
  else none

/-- The fold from `src/main.rs` that builds the `--cipher` help string:
`Cipher::iter().fold(String::new(), |mut acc, x| { acc.push_str(format!("{}{}{:?}", acc, sep, x)); acc })`
where `sep` is ", " when `acc` is nonempty and "" otherwise. Each step
pushes `acc ++ sep ++ name` onto the existing `acc`. Strings are viewed
as their character lists. -/
def cipherHelpFold (names : List (List Char)) : List Char :=
  names.foldl
    (fun acc x => acc ++ (acc ++ (if acc.length ≠ 0 then ", ".data else []) ++ x)) []

/-- The listing the help string is expected to be: each variant name
exactly once, separated by ", " (this follows the claim's words, for
comparison with `cipherHelpFold`). -/
def sepListing : List (List Char) → List Char
  | [] => []
  | x :: l => l.foldl (fun acc y => acc ++ ", ".data ++ y) x

/-- Events observable in a run of `async_main` from `src/main.rs`:
console prints, password reads from stdin, the `change_password` library
call, and mounting the filesystem (`run_fuse`). -/
inductive MainEvent
  | printed (s : String)
  | passwordRead
  | changedPassword
  | mounted
deriving DecidableEq

/-- Command-line arguments of `src/main.rs` relevant to control flow.
`mountPoint`, `cipherArg` and `roundsArg` are `none` when the flag is
absent (clap's defaults "ChaCha20" / "600000" are applied in `asyncMain`,
matching `default_value` in the source). -/
structure CliArgs where
  mountPoint : Option String
  cipherArg : Option String
  roundsArg : Option String
  changePasswordFlag : Bool

/-- Numeric value of a digit string (decimal). -/
def digitsVal (l : List Char) : ℕ :=
  l.foldl (fun a c => a * 10 + (c.toNat - '0'.toNat)) 0

/-- Model of Rust's `u32::from_str`: an optional leading '+', then a
nonempty digit string whose value fits in 32 bits. -/
def parseU32 (s : String) : Option ℕ :=
  let l := match s.data with
    | '+' :: r => r
    | r => r
  if l ≠ [] ∧ l.all Char.isDigit ∧ digitsVal l < 2 ^ 32 then some (digitsVal l)
  else none

/-- The control flow of `async_main` in `src/main.rs` as an event trace:
parse the cipher (early return on failure), parse the KDF rounds (early
return on failure), then either the change-password branch (two password
reads, the library call, a success message) or the mount branch (require
`--mount-point`, take the password from the `ENCRYPTED_FS_PASSWORD`
environment variable when nonempty, otherwise prompt on stdin, then
mount). `envPassword` is `none` when the variable is unset. -/
def asyncMain (args : CliArgs) (envPassword : Option String) : List MainEvent :=
  match Cipher.fromStr (args.cipherArg.getD "ChaCha20") with
  | none => [.printed "Invalid encryption type"]
  | some _ =>
    match parseU32 (args.roundsArg.getD "600000") with
    | none => [.printed "Invalid derive-key-hash-rounds"]
    | some _ =>
      if args.changePasswordFlag then
        [.printed "Enter old password: ", .passwordRead,
         .printed "Enter new password: ", .passwordRead,
         .changedPassword, .printed "Password changed successfully"]
      else
        match args.mountPoint with
        | none => [.printed "--mount-point <MOUNT_POINT> is required"]
        | some _ =>
          (if envPassword.getD "" = "" then
            [.printed "Enter password: ", .passwordRead]
          else []) ++ [.mounted]

/-- Modelled from the spec: the on-disk WrappedKey record
{salt, KDF round count, nonce, ciphertext-of-MasterKey, authentication tag}.
The master key and passwords are natural numbers in the model. -/
structure WrappedKey where
  salt : ℕ
  rounds : ℕ
  nonce : ℕ
  ct : List ℕ
  tag : ℕ
deriving DecidableEq

/-- Modelled from the spec: the slow password-based key derivation
function, idealized as an injective pairing of (password, salt, rounds). -/
def deriveKey (pw salt rounds : ℕ) : ℕ := Nat.pair pw (Nat.pair salt rounds)

/-- Modelled from the spec: wrap a MasterKey `mk` under the key derived
from a password, producing the WrappedKey record. -/
def wrapKey (pw salt rounds nonce mk : ℕ) : WrappedKey :=
  ⟨salt, rounds, nonce, (encrypt (deriveKey pw salt rounds) nonce [mk]).1,
   (encrypt (deriveKey pw salt rounds) nonce [mk]).2⟩

/-- Modelled from the spec: `unlock(password, WrappedKey) -> MasterKey |
AuthenticationError`; `none` is the AuthenticationError outcome. -/
def unlock (pw : ℕ) (wk : WrappedKey) : Option ℕ :=
  (decrypt (deriveKey pw wk.salt wk.rounds) wk.nonce wk.ct wk.tag).bind List.head?

/-- Modelled from the spec: `changePassword(oldPassword, newPassword,
WrappedKey)`: unwrap with the old password, re-wrap the same MasterKey
with the new password under a freshly generated salt and nonce. -/
def changePassword (old new wk_salt wk_nonce : ℕ) (wk : WrappedKey) : Option WrappedKey :=
  (unlock old wk).map (fun mk => wrapKey new wk_salt wk.rounds wk_nonce mk)

/-- Serialization of a WrappedKey record to bytes for the on-disk file. -/
def encodeWK (wk : WrappedKey) : List ℕ :=
  wk.salt :: wk.rounds :: wk.nonce :: wk.tag :: wk.ct

/-- Parse a WrappedKey record back from its on-disk bytes. -/
def decodeWK : List ℕ → Option WrappedKey
  | salt :: rounds :: nonce :: tag :: ct => some ⟨salt, rounds, nonce, ct, tag⟩
  | _ => none

/-- Modelled from the spec: the durable state relevant to key rotation:
the bytes of the main WrappedKey file and the bytes written so far to the
temporary file. -/
structure KeyDisk where
  main : List ℕ
  tmp : List ℕ
deriving DecidableEq

/-- Modelled from the spec: the disk state when rotation is interrupted at
step `k`: while `k` is at most the length of the new record, only a prefix
of the temporary file has been written and the main record is untouched;
past that, the atomic rename has replaced the main record wholesale. -/
def rotState (wkOld wkNew : WrappedKey) (k : ℕ) : KeyDisk :=
  if k ≤ (encodeWK wkNew).length then ⟨encodeWK wkOld, (encodeWK wkNew).take k⟩
  else ⟨encodeWK wkNew, []⟩

/-- Unlock using the WrappedKey record parsed from the disk's main file. -/
def unlockDisk (pw : ℕ) (d : KeyDisk) : Option ℕ :=
  (decodeWK d.main).bind (unlock pw)

/-- Modelled from the spec: the data directory layout (§6): one WrappedKey
record, a metadata region of encrypted inode records, and a chunk region
of encrypted data chunks. -/
structure DataDir where
  wrapped : WrappedKey
  metaRegion : List ℕ
  chunkRegion : List ℕ

/-- Modelled from the spec: the offline
`changePassword(dataDirectoryPath, oldPassword, newPassword, cipher, kdfRounds)`
operation: it replaces the WrappedKey record and touches nothing else. -/
def changePasswordOffline (d : DataDir) (old new wk_salt wk_nonce : ℕ) : Option DataDir :=
  (changePassword old new wk_salt wk_nonce d.wrapped).map
    (fun wk => ⟨wk, d.metaRegion, d.chunkRegion⟩)

/-! Chunked Object Store. -/

/-- Modelled from the spec: one persisted chunk: nonce, ciphertext and
authentication tag (the chunk index is the key under which it is stored). -/
structure EncChunk where
  nonce : ℕ
  ct : List ℕ
  tag : ℕ

/-- Modelled from the spec: the persistent state of one inode's data:
its encrypted chunks by chunk index, its logical size in bytes, and the
per-write version counter used for nonce derivation. -/
structure FileState where
  chunks : ℕ → Option EncChunk
  size : ℕ
  ver : ℕ

/-- Modelled from the spec: the chunk nonce, derived deterministically
from the inode number, the chunk index and the per-write version counter. -/
def nonceFor (inode i v : ℕ) : ℕ := Nat.pair inode (Nat.pair i v)

/-- A list of `n` zero bytes. -/
def zeros (n : ℕ) : List ℕ := List.replicate n 0

/-- Encrypt a full chunk plaintext into a persisted chunk record. -/
def mkEncChunk (key nonce : ℕ) (pt : List ℕ) : EncChunk :=
  ⟨nonce, (encrypt key nonce pt).1, (encrypt key nonce pt).2⟩

/-- Authenticated decryption of a persisted chunk. -/
def decryptChunk (key : ℕ) (c : EncChunk) : Option (List ℕ) :=
  decrypt key c.nonce c.ct c.tag

/-- Plaintext of chunk `i`: a missing chunk is a sparse hole and reads as
`cs` zero bytes; a present chunk must pass authenticated decryption. -/
def chunkPlain (key cs : ℕ) (st : FileState) (i : ℕ) : Option (List ℕ) :=
  match st.chunks i with
  | none => some (zeros cs)
  | some c => decryptChunk key c

/-- The logical byte at position `p`, via the chunk containing it. -/
def byteAt (key cs : ℕ) (st : FileState) (p : ℕ) : Option ℕ :=
  (chunkPlain key cs st (p / cs)).map (fun pt => pt.getD (p % cs) 0)

/-- Collect `n` bytes starting at position `p`, failing closed if any byte
fails (so a read never returns partial plaintext). -/
def readBytes (f : ℕ → Option ℕ) : ℕ → ℕ → Option (List ℕ)
  | _, 0 => some []
  | p, n + 1 =>
    match f p, readBytes f (p + 1) n with
    | some b, some r => some (b :: r)
    | _, _ => none

/-- Modelled from the spec: `read(inode#, offset, length) -> bytes`:
the requested range clamped to the declared size, assembled from decrypted
chunks; fails closed on any integrity error. -/
def read (key cs : ℕ) (st : FileState) (offset len : ℕ) : Option (List ℕ) :=
  readBytes (byteAt key cs st) offset (min len (st.size - offset))

/-- The existing logical byte at `p` as seen by a read-modify-write
(zero for sparse holes). -/
def oldByte (key cs : ℕ) (st : FileState) (p : ℕ) : ℕ :=
  ((chunkPlain key cs st (p / cs)).getD (zeros cs)).getD (p % cs) 0

/-- The logical byte at `p` after overlaying `data` at `offset`: bytes in
the written range come from `data`, bytes below the old size keep their
old value, and bytes past the old size (the sparse gap and the tail of the
last touched chunk) are zero. -/
def overlayByte (key cs : ℕ) (st : FileState) (offset : ℕ) (data : List ℕ) (p : ℕ) : ℕ :=
  if offset ≤ p ∧ p < offset + data.length then data.getD (p - offset) 0
  else if p < st.size then oldByte key cs st p
  else 0

/-- The full plaintext of chunk `i` after overlaying `data` at `offset`. -/
def newChunkPt (key cs : ℕ) (st : FileState) (offset : ℕ) (data : List ℕ) (i : ℕ) :
    List ℕ :=
  (List.range cs).map (fun j => overlayByte key cs st offset data (i * cs + j))

/-- First chunk index rewritten by a write: the write materializes the
sparse gap between the old size and the write offset, so it starts at the
chunk containing `min size offset`. -/
def writeA (cs : ℕ) (st : FileState) (offset : ℕ) : ℕ := min st.size offset / cs

/-- Last chunk index rewritten by a write of `len` bytes at `offset`. -/
def writeB (cs offset len : ℕ) : ℕ := (offset + len - 1) / cs

/-- Modelled from the spec: `write(inode#, offset, bytes)`: the byte range
(together with the sparse gap up to the old size) is split into the chunks
it intersects; each touched chunk goes through full decrypt, overlay and
full re-encrypt with a fresh nonce derived from (inode, chunk index,
version counter); the version counter then increments. Fails closed
(`none`) if any touched chunk fails authenticated decryption.
The state produced by a successful write: every touched chunk is
re-encrypted from its overlaid plaintext with a fresh nonce, the size
grows to cover the written range, and the version counter increments. -/
def writtenState (key cs inode : ℕ) (st : FileState) (offset : ℕ) (data : List ℕ) :
    FileState :=
  { chunks := fun i =>
      if writeA cs st offset ≤ i ∧ i ≤ writeB cs offset data.length then
        some (mkEncChunk key (nonceFor inode i st.ver)
          (newChunkPt key cs st offset data i))
      else st.chunks i,
    size := max st.size (offset + data.length),
    ver := st.ver + 1 }

def write (key cs inode : ℕ) (st : FileState) (offset : ℕ) (data : List ℕ) :
    Option FileState :=
  if data.isEmpty then some st
  else
    if (List.range (writeB cs offset data.length + 1 - writeA cs st offset)).all
        (fun k => (chunkPlain key cs st (writeA cs st offset + k)).isSome) then
      some (writtenState key cs inode st offset data)
    else none

/-- The zero-padded plaintext of the chunk straddling a truncation to `n`
bytes: bytes below the cut keep their value, bytes at or past it are zero. -/
def truncChunkPt (cs n : ℕ) (pt : List ℕ) : List ℕ :=
  (List.range cs).map (fun j => if n ≤ n / cs * cs + j then 0 else pt.getD j 0)

/-- Modelled from the spec: `truncate(inode#, newSize)`: growing only
declares the larger size (the gap is a sparse hole); shrinking removes
every chunk entirely past the new boundary and re-encrypts the chunk
straddling the boundary with zero-padding beyond the cut point and a
fresh nonce.
The state after a shrinking truncation when the new boundary needs no
chunk rewrite: chunks entirely past the boundary are dropped. -/
def truncDrop (cs : ℕ) (st : FileState) (n : ℕ) : FileState :=
  { chunks := fun i => if n ≤ i * cs then none else st.chunks i,
    size := n, ver := st.ver }

/-- The state after a shrinking truncation that rewrites the chunk
straddling the boundary: chunks past the boundary are dropped and the
straddling chunk is re-encrypted from its zero-padded plaintext with a
fresh nonce. -/
def truncStraddle (key cs inode : ℕ) (st : FileState) (n : ℕ) (pt : List ℕ) :
    FileState :=
  { chunks := fun i =>
      if n ≤ i * cs then none
      else if i = n / cs then
        some (mkEncChunk key (nonceFor inode (n / cs) st.ver) (truncChunkPt cs n pt))
      else st.chunks i,
    size := n, ver := st.ver + 1 }

def truncate (key cs inode : ℕ) (st : FileState) (n : ℕ) : Option FileState :=
  if st.size ≤ n then some { st with size := n }
  else if n % cs = 0 then some (truncDrop cs st n)
  else
    match st.chunks (n / cs) with
    | none => some (truncDrop cs st n)
    | some c =>
      match decryptChunk key c with
      | none => none
      | some pt => some (truncStraddle key cs inode st n pt)

/-- Well-formedness of a file state: every persisted chunk passes
authenticated decryption to a plaintext of exactly the chunk size whose
bytes at or past the logical size are zero. -/
def WF (key cs : ℕ) (st : FileState) : Prop :=
  ∀ i c, st.chunks i = some c →
    ∃ pt, decryptChunk key c = some pt ∧ pt.length = cs ∧
      ∀ j, j < cs → st.size ≤ i * cs + j → pt.getD j 0 = 0

/-- The empty filesystem state for one inode: no chunks, size zero. -/
def emptyFS : FileState := ⟨fun _ => none, 0, 0⟩

/-- Replace chunk `i` of a state (used to model on-disk tampering). -/
def setChunk (st : FileState) (i : ℕ) (c : EncChunk) : FileState :=
  { st with chunks := fun j => if j = i then some c else st.chunks j }

/-- Flip bit `j` of a natural number. -/
def flipBitNat (j n : ℕ) : ℕ := n ^^^ 2 ^ j

/-- Flip bit `j` of ciphertext byte `k` of a persisted chunk. -/
def tamperCt (c : EncChunk) (k j : ℕ) : EncChunk :=
  ⟨c.nonce, c.ct.set k (flipBitNat j (c.ct.getD k 0)), c.tag⟩

/-- Flip bit `j` of the authentication tag of a persisted chunk. -/
def tamperTag (c : EncChunk) (j : ℕ) : EncChunk :=
  ⟨c.nonce, c.ct, flipBitNat j c.tag⟩

/-- The chunk indices rewritten by a write. -/
def writeTouched (cs : ℕ) (st : FileState) (offset len : ℕ) : List ℕ :=
  (List.range (writeB cs offset len + 1 - writeA cs st offset)).map
    (fun k => writeA cs st offset + k)

/-- The (nonce, chunk plaintext) encryption events performed by a write. -/
def writeLog (key cs inode : ℕ) (st : FileState) (offset : ℕ) (data : List ℕ) :
    List (ℕ × List ℕ) :=
  if data.isEmpty then []
  else (writeTouched cs st offset data.length).map
    (fun i => (nonceFor inode i st.ver, newChunkPt key cs st offset data i))

/-- The (nonce, chunk plaintext) encryption events performed by a truncate. -/
def truncLog (key cs inode : ℕ) (st : FileState) (n : ℕ) : List (ℕ × List ℕ) :=
  if st.size ≤ n then []
  else if n % cs = 0 then []
  else
    match st.chunks (n / cs) with
    | none => []
    | some c =>
      match decryptChunk key c with
      | none => []
      | some pt => [(nonceFor inode (n / cs) st.ver, truncChunkPt cs n pt)]

/-- An operation of the Chunked Object Store that (re-)encrypts chunks. -/
inductive FsOp
  | writeOp (offset : ℕ) (data : List ℕ)
  | truncateOp (n : ℕ)

/-- Apply one operation, returning the new state and the encryption
events it performed. -/
def applyOp (key cs inode : ℕ) (st : FileState) : FsOp → Option (FileState × List (ℕ × List ℕ))
  | .writeOp offset data =>
    (write key cs inode st offset data).map
      (fun st1 => (st1, writeLog key cs inode st offset data))
  | .truncateOp n =>
    (truncate key cs inode st n).map (fun st1 => (st1, truncLog key cs inode st n))

/-- Run a sequence of operations, accumulating all encryption events. -/
def runOps (key cs inode : ℕ) : FileState → List FsOp → Option (FileState × List (ℕ × List ℕ))
  | st, [] => some (st, [])
  | st, op :: ops =>
    match applyOp key cs inode st op with
    | none => none
    | some (st1, log1) =>
      match runOps key cs inode st1 ops with
      | none => none
      | some (st2, log2) => some (st2, log1 ++ log2)

/-- A tiny concrete chunk used to exercise the tamper-detection theorem. -/
def sampleChunk : EncChunk := mkEncChunk 0 7 [5]

/-- A one-byte file whose only chunk is `sampleChunk` (chunk size 1). -/
def sampleFS : FileState := ⟨fun i => if i = 0 then some sampleChunk else none, 1, 1⟩

/-! ## Helper lemmas -/

theorem decFrom_encFrom (key nonce : ℕ) :
    ∀ (i : ℕ) (pt : List ℕ), decFrom key nonce i (encFrom key nonce i pt) = pt := by
  intro i pt
  induction pt generalizing i with
  | nil => rfl
  | cons b r ih => simp [encFrom, decFrom, ih]

theorem decrypt_encrypt (key nonce : ℕ) (pt : List ℕ) :
    decrypt key nonce (encrypt key nonce pt).1 (encrypt key nonce pt).2 = some pt := by
  simp [decrypt, encrypt, decFrom_encFrom]

theorem encodeList_injective : Function.Injective encodeList := by
  intro l1 l2 h
  induction l1 generalizing l2 with
  | nil =>
    cases l2 with
    | nil => rfl
    | cons b r => simp [encodeList] at h
  | cons a r ih =>
    cases l2 with
    | nil => simp [encodeList] at h
    | cons b s =>
      simp only [encodeList, Nat.add_right_cancel_iff] at h
      obtain ⟨h1, h2⟩ := Nat.pair_eq_pair.mp h
      rw [h1, ih h2]

theorem mac_ct_ne (key nonce : ℕ) {ct ct' : List ℕ} (h : ct ≠ ct') :
    mac key nonce ct ≠ mac key nonce ct' := by
  intro hm
  obtain ⟨-, h2⟩ := Nat.pair_eq_pair.mp hm
  obtain ⟨-, h3⟩ := Nat.pair_eq_pair.mp h2
  exact h (encodeList_injective h3)

theorem mac_key_ne {key key' : ℕ} (nonce nonce' : ℕ) (ct ct' : List ℕ)
    (h : key ≠ key') : mac key nonce ct ≠ mac key' nonce' ct' := by
  intro hm
  exact h (Nat.pair_eq_pair.mp hm).1

/-- Decryption with a key different from the encrypting key fails closed. -/
theorem decrypt_wrong_key {key key' : ℕ} (nonce : ℕ) (pt : List ℕ)
    (h : key' ≠ key) :
    decrypt key' nonce (encrypt key nonce pt).1 (encrypt key nonce pt).2 = none := by
  simp only [decrypt, encrypt]
  rw [if_neg]
  exact fun hm => mac_key_ne nonce nonce _ _ h hm.symm

theorem wf_emptyFS (key cs : ℕ) : WF key cs emptyFS := by
  intro i c h
  simp [emptyFS] at h

theorem decryptChunk_mkEncChunk (key nonce : ℕ) (pt : List ℕ) :
    decryptChunk key (mkEncChunk key nonce pt) = some pt :=
  decrypt_encrypt key nonce pt

theorem chunkPlain_of_some {key cs : ℕ} {st : FileState} {i : ℕ} {c : EncChunk}
    (h : st.chunks i = some c) : chunkPlain key cs st i = decryptChunk key c := by
  unfold chunkPlain
  rw [h]

theorem chunkPlain_of_none {key cs : ℕ} {st : FileState} {i : ℕ}
    (h : st.chunks i = none) : chunkPlain key cs st i = some (zeros cs) := by
  unfold chunkPlain
  rw [h]

theorem chunkPlain_isSome {key cs : ℕ} {st : FileState} (hWF : WF key cs st)
    (i : ℕ) : (chunkPlain key cs st i).isSome := by
  cases hc : st.chunks i with
  | none => rw [chunkPlain_of_none hc]; rfl
  | some c =>
    obtain ⟨pt, hd, -, -⟩ := hWF i c hc
    rw [chunkPlain_of_some hc, hd]
    rfl

theorem getD_range_map (g : ℕ → ℕ) {n m : ℕ} (h : m < n) :
    ((List.range n).map g).getD m 0 = g m := by
  rw [List.getD_eq_getElem?_getD, List.getElem?_map, List.getElem?_range h]
  rfl

theorem length_newChunkPt (key cs : ℕ) (st : FileState) (offset : ℕ)
    (data : List ℕ) (i : ℕ) : (newChunkPt key cs st offset data i).length = cs := by
  simp [newChunkPt]

theorem readBytes_eq_some (f : ℕ → Option ℕ) :
    ∀ (data : List ℕ) (p : ℕ),
      (∀ k, k < data.length → f (p + k) = some (data.getD k 0)) →
      readBytes f p data.length = some data := by
  intro data
  induction data with
  | nil => intro p _; rfl
  | cons d rest ih =>
    intro p h
    have h0 : f p = some d := by simpa using h 0 (by simp)
    have hr : readBytes f (p + 1) rest.length = some rest := by
      apply ih
      intro k hk
      have h1 := h (k + 1) (by simpa using Nat.succ_lt_succ hk)
      rw [show p + (k + 1) = p + 1 + k by omega] at h1
      simpa using h1
    show readBytes f p (rest.length + 1) = some (d :: rest)
    simp [readBytes, h0, hr]

theorem readBytes_none (f : ℕ → Option ℕ) :
    ∀ (n p k : ℕ), k < n → f (p + k) = none → readBytes f p n = none := by
  intro n
  induction n with
  | zero => intro p k hk _; omega
  | succ m ih =>
    intro p k hk hf
    cases k with
    | zero =>
      rw [Nat.add_zero] at hf
      simp [readBytes, hf]
    | succ k1 =>
      have hr : readBytes f (p + 1) m = none := by
        apply ih (p + 1) k1 (by omega)
        rw [show p + 1 + k1 = p + (k1 + 1) by omega]
        exact hf
      cases hfp : f p <;> simp [readBytes, hfp, hr]

theorem write_eq {key cs inode : ℕ} {st : FileState} {offset : ℕ} {data : List ℕ}
    (hWF : WF key cs st) (hne : data.isEmpty = false) :
    write key cs inode st offset data = some (writtenState key cs inode st offset data) := by
  unfold write
  rw [hne]
  simp only [Bool.false_eq_true, if_false]
  rw [if_pos]
  rw [List.all_eq_true]
  intro k _
  exact chunkPlain_isSome hWF _

theorem chunks_writtenState_in (key inode : ℕ) {cs offset : ℕ} {st : FileState}
    {data : List ℕ} {i : ℕ}
    (hin : writeA cs st offset ≤ i ∧ i ≤ writeB cs offset data.length) :
    (writtenState key cs inode st offset data).chunks i =
      some (mkEncChunk key (nonceFor inode i st.ver)
        (newChunkPt key cs st offset data i)) := by
  unfold writtenState
  dsimp only
  rw [if_pos hin]

theorem chunks_writtenState_out (key inode : ℕ) {cs offset : ℕ} {st : FileState}
    {data : List ℕ} {i : ℕ}
    (hout : ¬(writeA cs st offset ≤ i ∧ i ≤ writeB cs offset data.length)) :
    (writtenState key cs inode st offset data).chunks i = st.chunks i := by
  unfold writtenState
  dsimp only
  rw [if_neg hout]

theorem div_in_writeRange {cs offset : ℕ} {st : FileState} {data : List ℕ} {p : ℕ}
    (hp1 : offset ≤ p) (hp2 : p < offset + data.length) :
    writeA cs st offset ≤ p / cs ∧ p / cs ≤ writeB cs offset data.length := by
  constructor
  · exact Nat.div_le_div_right (le_trans (min_le_right _ _) hp1)
  · exact Nat.div_le_div_right (by omega)

theorem getD_newChunkPt {key cs : ℕ} (st : FileState) (offset : ℕ) (data : List ℕ)
    (i : ℕ) {j : ℕ} (hj : j < cs) :
    (newChunkPt key cs st offset data i).getD j 0 =
      overlayByte key cs st offset data (i * cs + j) := by
  unfold newChunkPt
  exact getD_range_map _ hj

theorem byteAt_writtenState (key cs inode : ℕ) (st : FileState) (offset : ℕ)
    (data : List ℕ) (hcs : 0 < cs) {p : ℕ} (hp1 : offset ≤ p)
    (hp2 : p < offset + data.length) :
    byteAt key cs (writtenState key cs inode st offset data) p =
      some (data.getD (p - offset) 0) := by
  unfold byteAt
  rw [chunkPlain_of_some (chunks_writtenState_in key inode (div_in_writeRange hp1 hp2)),
    decryptChunk_mkEncChunk]
  rw [show Option.map (fun pt => pt.getD (p % cs) 0)
        (some (newChunkPt key cs st offset data (p / cs))) =
      some ((newChunkPt key cs st offset data (p / cs)).getD (p % cs) 0) from rfl]
  rw [getD_newChunkPt st offset data _ (Nat.mod_lt _ hcs)]
  rw [show p / cs * cs + p % cs = p by rw [Nat.mul_comm]; exact Nat.div_add_mod p cs]
  unfold overlayByte
  rw [if_pos ⟨hp1, hp2⟩]

theorem WF_writtenState {key cs inode : ℕ} {st : FileState} {offset : ℕ}
    {data : List ℕ} (hWF : WF key cs st) :
    WF key cs (writtenState key cs inode st offset data) := by
  intro i c hc
  by_cases hin : writeA cs st offset ≤ i ∧ i ≤ writeB cs offset data.length
  · rw [chunks_writtenState_in key inode hin] at hc
    refine ⟨newChunkPt key cs st offset data i, ?_, length_newChunkPt key cs st offset data i, ?_⟩
    · rw [← Option.some_inj.mp hc]
      exact decryptChunk_mkEncChunk key _ _
    · intro j hj hsz
      rw [getD_newChunkPt st offset data i hj]
      unfold overlayByte
      have hsz1 : (writtenState key cs inode st offset data).size =
          max st.size (offset + data.length) := rfl
      rw [hsz1] at hsz
      rw [if_neg (by omega), if_neg (by omega)]
  · rw [chunks_writtenState_out key inode hin] at hc
    obtain ⟨pt, hd, hl, hz⟩ := hWF i c hc
    refine ⟨pt, hd, hl, ?_⟩
    intro j hj hsz
    have hsz1 : (writtenState key cs inode st offset data).size =
        max st.size (offset + data.length) := rfl
    rw [hsz1] at hsz
    exact hz j hj (by omega)

theorem foldl_sep_len_lt :
    ∀ (l : List (List Char)) (acc1 acc2 : List Char), acc2.length < acc1.length →
    (l.foldl (fun acc y => acc ++ ", ".data ++ y) acc2).length <
      (l.foldl
        (fun acc x => acc ++ (acc ++ (if acc.length ≠ 0 then ", ".data else []) ++ x))
        acc1).length := by
  intro l
  induction l with
  | nil => intro acc1 acc2 h; simpa using h
  | cons x r ih =>
    intro acc1 acc2 h
    simp only [List.foldl]
    apply ih
    have h1 : acc1.length ≠ 0 := by omega
    rw [if_pos h1]
    simp only [List.length_append]
    have : (", ".data).length = 2 := by decide
    omega

theorem foldl_extends (e : List Char → List Char → List Char) (l : List (List Char)) :
    ∀ acc : List Char, ∃ t, l.foldl (fun acc x => acc ++ e acc x) acc = acc ++ t := by
  induction l with
  | nil => intro acc; exact ⟨[], by simp⟩
  | cons x r ih =>
    intro acc
    obtain ⟨t, ht⟩ := ih (acc ++ e acc x)
    exact ⟨e acc x ++ t, by rw [List.foldl_cons, ht, List.append_assoc]⟩

theorem cipherHelpFold_cons_cons (x1 x2 : List Char) (rest : List (List Char))
    (h : x1 ≠ []) :
    cipherHelpFold (x1 :: x2 :: rest) =
      rest.foldl
        (fun acc x => acc ++ (acc ++ (if acc.length ≠ 0 then ", ".data else []) ++ x))
        (x1 ++ (x1 ++ ", ".data ++ x2)) := by
  have hx : ¬(x1.length = 0) := by simpa using h
  simp [cipherHelpFold, List.foldl, hx]

theorem flipBitNat_ne (j n : ℕ) : flipBitNat j n ≠ n := by
  unfold flipBitNat
  intro h
  have h2 : n ^^^ (n ^^^ 2 ^ j) = n ^^^ n := congrArg (n ^^^ ·) h
  rw [← Nat.xor_assoc, Nat.xor_self, Nat.zero_xor] at h2
  have hpos : 0 < 2 ^ j := Nat.pos_pow_of_pos j (by omega)
  omega

theorem tag_eq_mac_of_decrypt {key : ℕ} {c : EncChunk} {pt : List ℕ}
    (h : decryptChunk key c = some pt) : c.tag = mac key c.nonce c.ct := by
  unfold decryptChunk decrypt at h
  by_cases ht : c.tag = mac key c.nonce c.ct
  · exact ht
  · rw [if_neg ht] at h
    exact absurd h (by simp)

theorem set_flip_ne {l : List ℕ} {k : ℕ} (j : ℕ) (hk : k < l.length) :
    l.set k (flipBitNat j (l.getD k 0)) ≠ l := by
  intro h
  have h1 : (l.set k (flipBitNat j (l.getD k 0)))[k]? = l[k]? := by rw [h]
  rw [List.getElem?_set_self, List.getElem?_eq_getElem hk] at h1
  · rw [List.getD_eq_getElem?_getD, List.getElem?_eq_getElem hk] at h1
    exact flipBitNat_ne j (l.getD k 0) (by
      rw [List.getD_eq_getElem?_getD, List.getElem?_eq_getElem hk]
      exact Option.some_inj.mp h1)
  · exact hk

theorem wf_sampleFS : WF 0 1 sampleFS := by
  intro i c h
  unfold sampleFS at h
  dsimp only at h
  by_cases hi : i = 0
  · subst hi
    rw [if_pos rfl] at h
    have hcc : c = sampleChunk := (Option.some_inj.mp h).symm
    subst hcc
    refine ⟨[5], by decide, by decide, ?_⟩
    intro j hj hsz
    have hs1 : sampleFS.size = 1 := rfl
    omega
  · rw [if_neg hi] at h
    exact absurd h (by simp)

theorem truncate_eq_drop_aligned {key cs inode : ℕ} {st : FileState} {n : ℕ}
    (hsz : ¬st.size ≤ n) (hmod : n % cs = 0) :
    truncate key cs inode st n = some (truncDrop cs st n) := by
  unfold truncate
  rw [if_neg hsz, if_pos hmod]

theorem truncate_eq_straddle {key cs inode : ℕ} {st : FileState} {n : ℕ}
    {c : EncChunk} {pt : List ℕ} (hsz : ¬st.size ≤ n) (hmod : ¬n % cs = 0)
    (hch : st.chunks (n / cs) = some c) (hdec : decryptChunk key c = some pt) :
    truncate key cs inode st n = some (truncStraddle key cs inode st n pt) := by
  unfold truncate
  rw [if_neg hsz, if_neg hmod, hch]
  dsimp only
  rw [hdec]

theorem chunks_truncDrop_past {cs : ℕ} {st : FileState} {n i : ℕ}
    (h : n ≤ i * cs) : (truncDrop cs st n).chunks i = none := by
  unfold truncDrop
  dsimp only
  rw [if_pos h]

theorem chunks_truncStraddle_past {key cs inode : ℕ} {st : FileState}
    {n : ℕ} {pt : List ℕ} {i : ℕ} (h : n ≤ i * cs) :
    (truncStraddle key cs inode st n pt).chunks i = none := by
  unfold truncStraddle
  dsimp only
  rw [if_pos h]

theorem byteAt_truncDrop {key cs : ℕ} {st : FileState} {n p : ℕ} (hp : p < n) :
    byteAt key cs (truncDrop cs st n) p = byteAt key cs st p := by
  have h1 : p / cs * cs ≤ p := Nat.div_mul_le_self p cs
  unfold byteAt chunkPlain
  rw [show (truncDrop cs st n).chunks (p / cs) = st.chunks (p / cs) by
    unfold truncDrop
    dsimp only
    rw [if_neg (by omega)]]

theorem getD_truncChunkPt {cs n : ℕ} (pt : List ℕ) {j : ℕ} (hj : j < cs) :
    (truncChunkPt cs n pt).getD j 0 =
      if n ≤ n / cs * cs + j then 0 else pt.getD j 0 := by
  unfold truncChunkPt
  exact getD_range_map _ hj

theorem byteAt_truncStraddle {key cs inode : ℕ} {st : FileState} {n p : ℕ}
    {c : EncChunk} {pt : List ℕ} (hcs : 0 < cs) (hp : p < n)
    (hch : st.chunks (n / cs) = some c) (hdec : decryptChunk key c = some pt) :
    byteAt key cs (truncStraddle key cs inode st n pt) p = byteAt key cs st p := by
  have h1 : p / cs * cs ≤ p := Nat.div_mul_le_self p cs
  by_cases hi : p / cs = n / cs
  · have hch2 : (truncStraddle key cs inode st n pt).chunks (p / cs) =
        some (mkEncChunk key (nonceFor inode (n / cs) st.ver) (truncChunkPt cs n pt)) := by
      unfold truncStraddle
      dsimp only
      rw [if_neg (by omega), if_pos hi]
    have hch3 : st.chunks (p / cs) = some c := by rw [hi]; exact hch
    unfold byteAt
    rw [chunkPlain_of_some hch2, decryptChunk_mkEncChunk,
      chunkPlain_of_some hch3, hdec]
    show some ((truncChunkPt cs n pt).getD (p % cs) 0) = some (pt.getD (p % cs) 0)
    rw [getD_truncChunkPt pt (Nat.mod_lt _ hcs)]
    have h2 : p / cs * cs + p % cs = p := by
      rw [Nat.mul_comm]
      exact Nat.div_add_mod p cs
    have h3 : ¬n ≤ n / cs * cs + p % cs := by
      rw [← hi]
      omega
    rw [if_neg h3]
  · unfold byteAt chunkPlain
    rw [show (truncStraddle key cs inode st n pt).chunks (p / cs) =
        st.chunks (p / cs) by
      unfold truncStraddle
      dsimp only
      rw [if_neg (by omega), if_neg hi]]

theorem read_first100 (key cs : ℕ) (st1 st2 : FileState) (data : List ℕ)
    (hsz2 : st2.size = 100) (hlen : 100 ≤ data.length)
    (hb : ∀ p, p < 100 → byteAt key cs st2 p = byteAt key cs st1 p)
    (hb1 : ∀ p, p < 100 → byteAt key cs st1 p = some (data.getD p 0)) :
    read key cs st2 0 100 = some (data.take 100) := by
  unfold read
  rw [hsz2]
  have hl : (data.take 100).length = 100 := by
    rw [List.length_take]
    omega
  rw [show min 100 (100 - 0) = (data.take 100).length from by omega]
  apply readBytes_eq_some
  intro k hk
  rw [hl] at hk
  rw [show 0 + k = k from by omega, hb k hk, hb1 k hk]
  rw [List.getD_eq_getElem?_getD, List.getD_eq_getElem?_getD,
    List.getElem?_take_of_lt hk]

theorem read_past_size (key cs : ℕ) (st2 : FileState) (hsz2 : st2.size = 100) :
    ∀ off len2, 100 ≤ off → read key cs st2 off len2 = some [] := by
  intro off len2 hoff
  unfold read
  rw [hsz2, show min len2 (100 - off) = 0 from by omega]
  rfl

theorem nonceFor_inj {inode i v i2 v2 : ℕ}
    (h : nonceFor inode i v = nonceFor inode i2 v2) : i = i2 ∧ v = v2 := by
  unfold nonceFor at h
  obtain ⟨-, h2⟩ := Nat.pair_eq_pair.mp h
  exact Nat.pair_eq_pair.mp h2

theorem writeTouched_nodup (cs : ℕ) (st : FileState) (offset len : ℕ) :
    (writeTouched cs st offset len).Nodup := by
  unfold writeTouched
  exact (List.nodup_range _).map (add_right_injective _)

theorem writeLog_facts (key cs inode : ℕ) (st : FileState) (offset : ℕ)
    (data : List ℕ) :
    (∀ e ∈ writeLog key cs inode st offset data, ∃ i, e.1 = nonceFor inode i st.ver) ∧
    List.Pairwise (fun e1 e2 => e1.1 ≠ e2.1) (writeLog key cs inode st offset data) := by
  unfold writeLog
  by_cases hd : data.isEmpty
  · rw [if_pos hd]
    exact ⟨by simp, by simp⟩
  · rw [if_neg hd]
    constructor
    · intro e he
      obtain ⟨i, -, hi⟩ := List.mem_map.mp he
      exact ⟨i, by rw [← hi]⟩
    · rw [List.pairwise_map]
      refine ((writeTouched_nodup cs st offset data.length).imp ?_)
      intro i1 i2 hne heq
      exact hne (nonceFor_inj heq).1

theorem truncate_log_facts (key cs inode : ℕ) (st : FileState) (n : ℕ)
    (st1 : FileState) (h : truncate key cs inode st n = some st1) :
    st.ver ≤ st1.ver ∧
    (∀ e ∈ truncLog key cs inode st n,
      (∃ i, e.1 = nonceFor inode i st.ver) ∧ st.ver < st1.ver) ∧
    List.Pairwise (fun e1 e2 => e1.1 ≠ e2.1) (truncLog key cs inode st n) := by
  unfold truncate at h
  unfold truncLog
  by_cases h1 : st.size ≤ n
  · rw [if_pos h1] at h ⊢
    have hst : st1 = { st with size := n } := (Option.some_inj.mp h).symm
    exact ⟨le_of_eq (by rw [hst]), by simp, by simp⟩
  · rw [if_neg h1] at h ⊢
    by_cases h2 : n % cs = 0
    · rw [if_pos h2] at h ⊢
      have hst : st1 = truncDrop cs st n := (Option.some_inj.mp h).symm
      exact ⟨le_of_eq (by rw [hst]; rfl), by simp, by simp⟩
    · rw [if_neg h2] at h ⊢
      cases hc : st.chunks (n / cs) with
      | none =>
        rw [hc] at h
        dsimp only at h ⊢
        have hst : st1 = truncDrop cs st n := (Option.some_inj.mp h).symm
        exact ⟨le_of_eq (by rw [hst]; rfl), by simp, by simp⟩
      | some c =>
        rw [hc] at h
        dsimp only at h ⊢
        cases hd : decryptChunk key c with
        | none =>
          rw [hd] at h
          exact absurd h (by simp)
        | some pt =>
          rw [hd] at h
          dsimp only at h ⊢
          have hst : st1 = truncStraddle key cs inode st n pt :=
            (Option.some_inj.mp h).symm
          refine ⟨by rw [hst]; exact Nat.le_succ _, ?_, by simp⟩
          intro e he
          have he2 : e = (nonceFor inode (n / cs) st.ver, truncChunkPt cs n pt) := by
            simpa using he
          exact ⟨⟨n / cs, by rw [he2]⟩, by rw [hst]; exact Nat.lt_succ_self _⟩

theorem applyOp_log {key cs inode : ℕ} {st : FileState} {op : FsOp}
    {st1 : FileState} {log1 : List (ℕ × List ℕ)}
    (h : applyOp key cs inode st op = some (st1, log1)) :
    st.ver ≤ st1.ver ∧
    (∀ e ∈ log1, (∃ i, e.1 = nonceFor inode i st.ver) ∧ st.ver < st1.ver) ∧
    List.Pairwise (fun e1 e2 => e1.1 ≠ e2.1) log1 := by
  cases op with
  | writeOp offset data =>
    unfold applyOp at h
    dsimp only at h
    cases hw : write key cs inode st offset data with
    | none => rw [hw] at h; exact absurd h (by simp)
    | some stw =>
      rw [hw] at h
      have he : (stw, writeLog key cs inode st offset data) = (st1, log1) :=
        Option.some_inj.mp h
      have hst : stw = st1 := congrArg Prod.fst he
      have hlog : writeLog key cs inode st offset data = log1 := congrArg Prod.snd he
      obtain ⟨hmem, hpair⟩ := writeLog_facts key cs inode st offset data
      unfold write at hw
      by_cases hd : data.isEmpty
      · rw [if_pos hd] at hw
        have hw2 : st = stw := Option.some_inj.mp hw
        have hlog2 : log1 = [] := by
          rw [← hlog]
          unfold writeLog
          rw [if_pos hd]
        rw [hlog2]
        exact ⟨le_of_eq (by rw [← hst, ← hw2]), by simp, by simp⟩
      · rw [if_neg hd] at hw
        by_cases hall : (List.range (writeB cs offset data.length + 1 -
            writeA cs st offset)).all
            (fun k => (chunkPlain key cs st (writeA cs st offset + k)).isSome) = true
        · rw [if_pos hall] at hw
          have hw2 : writtenState key cs inode st offset data = stw :=
            Option.some_inj.mp hw
          have hver : st1.ver = st.ver + 1 := by
            rw [← hst, ← hw2]
            rfl
          refine ⟨by omega, ?_, hlog ▸ hpair⟩
          intro e he2
          rw [← hlog] at he2
          obtain ⟨i, hi⟩ := hmem e he2
          exact ⟨⟨i, hi⟩, by omega⟩
        · rw [if_neg hall] at hw
          exact absurd hw (by simp)
  | truncateOp n =>
    unfold applyOp at h
    dsimp only at h
    cases ht : truncate key cs inode st n with
    | none => rw [ht] at h; exact absurd h (by simp)
    | some stt =>
      rw [ht] at h
      have he : (stt, truncLog key cs inode st n) = (st1, log1) :=
        Option.some_inj.mp h
      have hst : stt = st1 := congrArg Prod.fst he
      have hlog : truncLog key cs inode st n = log1 := congrArg Prod.snd he
      obtain ⟨hv, hm, hp⟩ := truncate_log_facts key cs inode st n stt ht
      exact ⟨hst ▸ hv, hlog ▸ hst ▸ hm, hlog ▸ hp⟩

theorem runOps_log (key cs inode : ℕ) :
    ∀ (ops : List FsOp) (st st2 : FileState) (log : List (ℕ × List ℕ)),
      runOps key cs inode st ops = some (st2, log) →
      st.ver ≤ st2.ver ∧
      (∀ e ∈ log, ∃ i v, st.ver ≤ v ∧ v < st2.ver ∧ e.1 = nonceFor inode i v) ∧
      List.Pairwise (fun e1 e2 => e1.1 ≠ e2.1) log := by
  intro ops
  induction ops with
  | nil =>
    intro st st2 log h
    have he : (st, ([] : List (ℕ × List ℕ))) = (st2, log) := Option.some_inj.mp h
    have hst : st = st2 := congrArg Prod.fst he
    have hlog : ([] : List (ℕ × List ℕ)) = log := congrArg Prod.snd he
    rw [← hlog]
    exact ⟨le_of_eq (by rw [hst]), by simp, by simp⟩
  | cons op ops ih =>
    intro st st2 log h
    unfold runOps at h
    cases ha : applyOp key cs inode st op with
    | none => rw [ha] at h; exact absurd h (by simp)
    | some p =>
      obtain ⟨st1, log1⟩ := p
      rw [ha] at h
      dsimp only at h
      cases hr : runOps key cs inode st1 ops with
      | none => rw [hr] at h; exact absurd h (by simp)
      | some q =>
        obtain ⟨st3, log2⟩ := q
        rw [hr] at h
        dsimp only at h
        have he : (st3, log1 ++ log2) = (st2, log) := Option.some_inj.mp h
        have hst : st3 = st2 := congrArg Prod.fst he
        have hlog : log1 ++ log2 = log := congrArg Prod.snd he
        obtain ⟨hv1, hm1, hp1⟩ := applyOp_log ha
        obtain ⟨hv2, hm2, hp2⟩ := ih st1 st3 log2 hr
        rw [← hlog, ← hst]
        refine ⟨le_trans hv1 hv2, ?_, ?_⟩
        · intro e he2
          rcases List.mem_append.mp he2 with h3 | h3
          · obtain ⟨⟨i, hi⟩, hlt⟩ := hm1 e h3
            exact ⟨i, st.ver, le_refl _, lt_of_lt_of_le hlt hv2, hi⟩
          · obtain ⟨i, v, hv, hlt, hi⟩ := hm2 e h3
            exact ⟨i, v, le_trans hv1 hv, hlt, hi⟩
        · rw [List.pairwise_append]
          refine ⟨hp1, hp2, ?_⟩
          intro e1 h3 e2 h4
          obtain ⟨⟨i1, hi1⟩, hlt1⟩ := hm1 e1 h3
          obtain ⟨i2, v2, hv2b, hlt2, hi2⟩ := hm2 e2 h4
          rw [hi1, hi2]
          intro heq
          have hveq := (nonceFor_inj heq).2
          omega

/-! ## Claim theorems -/

/-- C1: for every inode, offset and byte sequence `data`, on any
well-formed store state — well-formedness is preserved by every write, so
this covers states produced by interleaved writes to overlapping ranges,
and the range may cross chunk boundaries — `write(inode, offset, data)`
succeeds and a subsequent `read(inode, offset, len(data))` returns
exactly `data`. -/
theorem c1_write_read_roundtrip (key cs inode : ℕ) (st : FileState) (offset : ℕ)
    (data : List ℕ) (hcs : 0 < cs) (hWF : WF key cs st) :
    ∃ st', write key cs inode st offset data = some st' ∧ WF key cs st' ∧
      read key cs st' offset data.length = some data := by
  cases hd : data.isEmpty with
  | true =>
    have hdata : data = [] := by
      cases data with
      | nil => rfl
      | cons a l => simp [List.isEmpty] at hd
    refine ⟨st, by simp [write, hd], hWF, ?_⟩
    subst hdata
    simp [read, readBytes]
  | false =>
    refine ⟨writtenState key cs inode st offset data, write_eq hWF hd,
      WF_writtenState hWF, ?_⟩
    have hsz : (writtenState key cs inode st offset data).size =
        max st.size (offset + data.length) := rfl
    unfold read
    rw [Nat.min_eq_left (by omega)]
    apply readBytes_eq_some
    intro k hk
    rw [byteAt_writtenState key cs inode st offset data hcs (by omega) (by omega)]
    rw [show offset + k - offset = k by omega]

/-- Witness for C1: writing three bytes at offset 1 with chunk size 2 into
the empty store and reading them back. -/
theorem c1_write_read_roundtrip_witness :
    0 < 2 ∧ WF 0 2 emptyFS ∧
    ∃ st', write 0 2 0 emptyFS 1 [3, 4, 5] = some st' ∧ WF 0 2 st' ∧
      read 0 2 st' 1 3 = some [3, 4, 5] :=
  ⟨by decide, wf_emptyFS 0 2,
   c1_write_read_roundtrip 0 2 0 emptyFS 1 [3, 4, 5] (by decide) (wf_emptyFS 0 2)⟩

/-- C2: for every persisted chunk of a well-formed store, flipping any
single bit of its ciphertext or of its authentication tag makes the
chunk's authenticated decryption fail with IntegrityError (`none`), and
any read whose range covers a byte of that chunk fails as a whole — the
failing decrypt never returns partial or corrupted plaintext. -/
theorem c2_tamper_detection (key cs : ℕ) (st : FileState) (i : ℕ) (c : EncChunk)
    (k j offset len p : ℕ) (hWF : WF key cs st) (hch : st.chunks i = some c)
    (hk : k < c.ct.length) :
    (decryptChunk key (tamperCt c k j) = none ∧
     decryptChunk key (tamperTag c j) = none) ∧
    (offset ≤ p → p < offset + len → p < st.size → p / cs = i →
      read key cs (setChunk st i (tamperCt c k j)) offset len = none ∧
      read key cs (setChunk st i (tamperTag c j)) offset len = none) := by
  obtain ⟨pt, hdec, -, -⟩ := hWF i c hch
  have htag : c.tag = mac key c.nonce c.ct := tag_eq_mac_of_decrypt hdec
  have hct : decryptChunk key (tamperCt c k j) = none := by
    unfold decryptChunk tamperCt decrypt
    dsimp only
    rw [if_neg]
    rw [htag]
    exact mac_ct_ne key c.nonce (Ne.symm (set_flip_ne j hk))
  have htg : decryptChunk key (tamperTag c j) = none := by
    unfold decryptChunk tamperTag decrypt
    dsimp only
    rw [if_neg]
    intro h
    rw [← htag] at h
    exact flipBitNat_ne j c.tag h
  refine ⟨⟨hct, htg⟩, ?_⟩
  intro hp1 hp2 hp3 hpi
  have hread : ∀ c', decryptChunk key c' = none →
      read key cs (setChunk st i c') offset len = none := by
    intro c' hc'
    unfold read
    apply readBytes_none (byteAt key cs (setChunk st i c'))
      (min len ((setChunk st i c').size - offset)) offset (p - offset)
    · have hs : (setChunk st i c').size = st.size := rfl
      omega
    · rw [show offset + (p - offset) = p by omega]
      unfold byteAt
      rw [chunkPlain_of_some (show (setChunk st i c').chunks (p / cs) = some c' by
        unfold setChunk
        dsimp only
        rw [hpi, if_pos rfl])]
      rw [hc']
      rfl
  exact ⟨hread _ hct, hread _ htg⟩

/-- Witness for C2: tampering with the single chunk of a one-byte store. -/
theorem c2_tamper_detection_witness :
    (decryptChunk 0 (tamperCt sampleChunk 0 0) = none ∧
     decryptChunk 0 (tamperTag sampleChunk 0) = none) ∧
    (read 0 1 (setChunk sampleFS 0 (tamperCt sampleChunk 0 0)) 0 1 = none ∧
     read 0 1 (setChunk sampleFS 0 (tamperTag sampleChunk 0)) 0 1 = none) :=
  have h := c2_tamper_detection 0 1 sampleFS 0 sampleChunk 0 0 0 1 0 wf_sampleFS
    rfl (by decide)
  ⟨h.1, h.2 (by decide) (by decide) (by decide) (by decide)⟩

/-- C3: for distinct passwords `old ≠ new`, after a successful
`changePassword(old, new)` the replacement WrappedKey unlocks under the
new password to the same MasterKey as before rotation (so every
previously written file, being encrypted under that unchanged MasterKey,
reads back unchanged), while unlocking the replaced WrappedKey with the
old password fails with AuthenticationError (`none`). -/
theorem c3_password_rotation (old new salt2 nonce2 mk : ℕ) (wk : WrappedKey)
    (hne : old ≠ new) (hu : unlock old wk = some mk) :
    ∃ wk', changePassword old new salt2 nonce2 wk = some wk' ∧
      unlock new wk' = some mk ∧ unlock old wk' = none := by
  refine ⟨wrapKey new salt2 wk.rounds nonce2 mk, ?_, ?_, ?_⟩
  · unfold changePassword
    rw [hu]
    rfl
  · show (decrypt (deriveKey new salt2 wk.rounds) nonce2
      (encrypt (deriveKey new salt2 wk.rounds) nonce2 [mk]).1
      (encrypt (deriveKey new salt2 wk.rounds) nonce2 [mk]).2).bind List.head? = some mk
    rw [decrypt_encrypt]
    rfl
  · show (decrypt (deriveKey old salt2 wk.rounds) nonce2
      (encrypt (deriveKey new salt2 wk.rounds) nonce2 [mk]).1
      (encrypt (deriveKey new salt2 wk.rounds) nonce2 [mk]).2).bind List.head? = none
    rw [decrypt_wrong_key]
    · rfl
    · intro h
      exact hne (Nat.pair_eq_pair.mp h).1

/-- Witness for C3: rotating from password 0 to password 1 on a concrete
WrappedKey holding MasterKey 5. -/
theorem c3_password_rotation_witness :
    (0 : ℕ) ≠ 1 ∧ unlock 0 (wrapKey 0 2 3 4 5) = some 5 ∧
    ∃ wk', changePassword 0 1 8 9 (wrapKey 0 2 3 4 5) = some wk' ∧
      unlock 1 wk' = some 5 ∧ unlock 0 wk' = none :=
  ⟨by decide, by decide,
   c3_password_rotation 0 1 8 9 5 (wrapKey 0 2 3 4 5) (by decide) (by decide)⟩

/-- C4: key rotation is all-or-nothing. At every crash point `k` during
rotation — while the new WrappedKey is still being written to the
temporary file — the main WrappedKey record on disk is byte-for-byte the
old record and still unlocks to the original MasterKey; only the final
atomic replacement switches it, wholesale, to the new record, so no
reachable disk state holds a partially applied WrappedKey. -/
theorem c4_rotation_atomic (wkOld wkNew : WrappedKey) (pw mk k : ℕ)
    (hu : unlock pw wkOld = some mk) :
    ((rotState wkOld wkNew k).main = encodeWK wkOld ∨
     (rotState wkOld wkNew k).main = encodeWK wkNew) ∧
    (k ≤ (encodeWK wkNew).length →
      (rotState wkOld wkNew k).main = encodeWK wkOld ∧
      unlockDisk pw (rotState wkOld wkNew k) = some mk) ∧
    ((encodeWK wkNew).length < k → (rotState wkOld wkNew k).main = encodeWK wkNew) := by
  have hdec : decodeWK (encodeWK wkOld) = some wkOld := rfl
  unfold rotState unlockDisk
  by_cases h : k ≤ (encodeWK wkNew).length
  · rw [if_pos h]
    refine ⟨Or.inl rfl, fun _ => ⟨rfl, ?_⟩, fun hlt => absurd h (by omega)⟩
    show (decodeWK (encodeWK wkOld)).bind (unlock pw) = some mk
    rw [hdec]
    exact hu
  · rw [if_neg h]
    exact ⟨Or.inr rfl, fun hk => absurd hk h, fun _ => rfl⟩

/-- Witness for C4: a crash after two bytes of the new record are
written leaves the old record intact and unlockable. -/
theorem c4_rotation_atomic_witness :
    unlock 0 (wrapKey 0 2 3 4 5) = some 5 ∧
    ((rotState (wrapKey 0 2 3 4 5) (wrapKey 1 6 3 7 5) 2).main =
        encodeWK (wrapKey 0 2 3 4 5) ∨
     (rotState (wrapKey 0 2 3 4 5) (wrapKey 1 6 3 7 5) 2).main =
        encodeWK (wrapKey 1 6 3 7 5)) ∧
    (2 ≤ (encodeWK (wrapKey 1 6 3 7 5)).length →
      (rotState (wrapKey 0 2 3 4 5) (wrapKey 1 6 3 7 5) 2).main =
          encodeWK (wrapKey 0 2 3 4 5) ∧
      unlockDisk 0 (rotState (wrapKey 0 2 3 4 5) (wrapKey 1 6 3 7 5) 2) = some 5) :=
  have h := c4_rotation_atomic (wrapKey 0 2 3 4 5) (wrapKey 1 6 3 7 5) 0 5 2 (by decide)
  ⟨by decide, h.1, h.2.1⟩

/-- C6: `changePassword` modifies only the WrappedKey record. The CLI
exposes it as an offline operation (the `--change-password` branch of
`async_main` reads two passwords, calls the library `change_password`
with the data directory, cipher and KDF rounds, and returns without ever
mounting), and the operation leaves the metadata region and the chunk
region of the data directory byte-for-byte unchanged. -/
theorem c6_change_password_offline_frame (args : CliArgs) (env : Option String)
    (hc : (Cipher.fromStr (args.cipherArg.getD "ChaCha20")).isSome)
    (hr : (parseU32 (args.roundsArg.getD "600000")).isSome)
    (hf : args.changePasswordFlag = true) :
    (asyncMain args env =
      [.printed "Enter old password: ", .passwordRead,
       .printed "Enter new password: ", .passwordRead,
       .changedPassword, .printed "Password changed successfully"] ∧
     MainEvent.mounted ∉ asyncMain args env) ∧
    (∀ (d : DataDir) (old new s n : ℕ) (d' : DataDir),
      changePasswordOffline d old new s n = some d' →
      d'.metaRegion = d.metaRegion ∧ d'.chunkRegion = d.chunkRegion) := by
  constructor
  · have htrace : asyncMain args env =
        [.printed "Enter old password: ", .passwordRead,
         .printed "Enter new password: ", .passwordRead,
         .changedPassword, .printed "Password changed successfully"] := by
      unfold asyncMain
      obtain ⟨c, hcv⟩ := Option.isSome_iff_exists.mp hc
      obtain ⟨r, hrv⟩ := Option.isSome_iff_exists.mp hr
      rw [hcv, hrv, hf]
      rfl
    refine ⟨htrace, ?_⟩
    rw [htrace]
    decide
  · intro d old new s n d' h
    unfold changePasswordOffline at h
    cases hcp : changePassword old new s n d.wrapped with
    | none => rw [hcp] at h; exact absurd h (by simp)
    | some wk =>
      rw [hcp] at h
      have : d' = ⟨wk, d.metaRegion, d.chunkRegion⟩ := (Option.some_inj.mp h).symm
      rw [this]
      exact ⟨rfl, rfl⟩

/-- Witness for C6: the change-password invocation with default cipher
and rounds. -/
theorem c6_change_password_offline_frame_witness :
    (asyncMain ⟨none, none, none, true⟩ none =
      [.printed "Enter old password: ", .passwordRead,
       .printed "Enter new password: ", .passwordRead,
       .changedPassword, .printed "Password changed successfully"] ∧
     MainEvent.mounted ∉ asyncMain ⟨none, none, none, true⟩ none) ∧
    (∀ (d : DataDir) (old new s n : ℕ) (d' : DataDir),
      changePasswordOffline d old new s n = some d' →
      d'.metaRegion = d.metaRegion ∧ d'.chunkRegion = d.chunkRegion) :=
  c6_change_password_offline_frame ⟨none, none, none, true⟩ none
    (by decide) (by decide) rfl

/-- C9: without `--change-password` and without `--mount-point` (and the
cipher and rounds arguments parsing, which the defaults do), `async_main`
prints "--mount-point <MOUNT_POINT> is required" and returns without
reading any password and without mounting; when `--cipher` does not parse
as a known cipher, or `--derive-key-hash-rounds` does not parse as a u32,
the program likewise returns early — before any password read and before
any mount — with the corresponding error message. -/
theorem c9_early_returns (args : CliArgs) (env : Option String) :
    ((Cipher.fromStr (args.cipherArg.getD "ChaCha20")).isSome →
     (parseU32 (args.roundsArg.getD "600000")).isSome →
     args.changePasswordFlag = false → args.mountPoint = none →
     asyncMain args env = [.printed "--mount-point <MOUNT_POINT> is required"] ∧
     MainEvent.passwordRead ∉ asyncMain args env ∧
     MainEvent.mounted ∉ asyncMain args env) ∧
    (Cipher.fromStr (args.cipherArg.getD "ChaCha20") = none →
     asyncMain args env = [.printed "Invalid encryption type"] ∧
     MainEvent.passwordRead ∉ asyncMain args env ∧
     MainEvent.mounted ∉ asyncMain args env) ∧
    ((Cipher.fromStr (args.cipherArg.getD "ChaCha20")).isSome →
     parseU32 (args.roundsArg.getD "600000") = none →
     asyncMain args env = [.printed "Invalid derive-key-hash-rounds"] ∧
     MainEvent.passwordRead ∉ asyncMain args env ∧
     MainEvent.mounted ∉ asyncMain args env) := by
  refine ⟨?_, ?_, ?_⟩
  · intro hc hr hf hm
    obtain ⟨c, hcv⟩ := Option.isSome_iff_exists.mp hc
    obtain ⟨r, hrv⟩ := Option.isSome_iff_exists.mp hr
    have htrace : asyncMain args env =
        [.printed "--mount-point <MOUNT_POINT> is required"] := by
      unfold asyncMain
      rw [hcv, hrv, hf, hm]
      rfl
    rw [htrace]
    exact ⟨rfl, by decide, by decide⟩
  · intro hc
    have htrace : asyncMain args env = [.printed "Invalid encryption type"] := by
      unfold asyncMain
      rw [hc]
    rw [htrace]
    exact ⟨rfl, by decide, by decide⟩
  · intro hc hr
    obtain ⟨c, hcv⟩ := Option.isSome_iff_exists.mp hc
    have htrace : asyncMain args env =
        [.printed "Invalid derive-key-hash-rounds"] := by
      unfold asyncMain
      rw [hcv, hr]
    rw [htrace]
    exact ⟨rfl, by decide, by decide⟩

/-- Witness for C9: the three early returns at concrete invocations:
no mount point with parsing defaults, an unknown cipher, and
non-numeric KDF rounds. -/
theorem c9_early_returns_witness :
    (asyncMain ⟨none, none, none, false⟩ none =
      [.printed "--mount-point <MOUNT_POINT> is required"] ∧
     MainEvent.passwordRead ∉ asyncMain ⟨none, none, none, false⟩ none ∧
     MainEvent.mounted ∉ asyncMain ⟨none, none, none, false⟩ none) ∧
    (asyncMain ⟨none, some "Rot13", none, false⟩ none =
      [.printed "Invalid encryption type"] ∧
     MainEvent.passwordRead ∉ asyncMain ⟨none, some "Rot13", none, false⟩ none ∧
     MainEvent.mounted ∉ asyncMain ⟨none, some "Rot13", none, false⟩ none) ∧
    (asyncMain ⟨none, none, some "many", false⟩ none =
      [.printed "Invalid derive-key-hash-rounds"] ∧
     MainEvent.passwordRead ∉ asyncMain ⟨none, none, some "many", false⟩ none ∧
     MainEvent.mounted ∉ asyncMain ⟨none, none, some "many", false⟩ none) :=
  ⟨(c9_early_returns ⟨none, none, none, false⟩ none).1
     (by decide) (by decide) rfl rfl,
   (c9_early_returns ⟨none, some "Rot13", none, false⟩ none).2.1 (by decide),
   (c9_early_returns ⟨none, none, some "many", false⟩ none).2.2
     (by decide) (by decide)⟩

/-- C10: in mount mode, when the ENCRYPTED_FS_PASSWORD environment
variable is set to a nonempty string the password is taken from it and
stdin is never prompted; only when the variable is unset or empty is the
password read interactively from stdin. -/
theorem c10_env_password (args : CliArgs) (env : Option String) (mp s : String)
    (hc : (Cipher.fromStr (args.cipherArg.getD "ChaCha20")).isSome)
    (hr : (parseU32 (args.roundsArg.getD "600000")).isSome)
    (hf : args.changePasswordFlag = false)
    (hm : args.mountPoint = some mp) :
    (env = some s → s ≠ "" →
      asyncMain args env = [.mounted] ∧
      MainEvent.passwordRead ∉ asyncMain args env) ∧
    ((env = none ∨ env = some "") →
      asyncMain args env = [.printed "Enter password: ", .passwordRead, .mounted]) := by
  obtain ⟨c, hcv⟩ := Option.isSome_iff_exists.mp hc
  obtain ⟨r, hrv⟩ := Option.isSome_iff_exists.mp hr
  constructor
  · intro he hs
    have htrace : asyncMain args env = [.mounted] := by
      unfold asyncMain
      rw [hcv, hrv, hf, hm, he]
      simp only [Option.getD_some]
      rw [if_neg hs]
      rfl
    rw [htrace]
    exact ⟨rfl, by decide⟩
  · intro he
    unfold asyncMain
    rw [hcv, hrv, hf, hm]
    cases he with
    | inl h => rw [h]; rfl
    | inr h => rw [h]; rfl

/-- Witness for C10: both password sources at a concrete invocation. -/
theorem c10_env_password_witness :
    (asyncMain ⟨some "/mnt", none, none, false⟩ (some "pw") = [.mounted] ∧
     MainEvent.passwordRead ∉ asyncMain ⟨some "/mnt", none, none, false⟩ (some "pw")) ∧
    asyncMain ⟨some "/mnt", none, none, false⟩ none =
      [.printed "Enter password: ", .passwordRead, .mounted] :=
  ⟨(c10_env_password ⟨some "/mnt", none, none, false⟩ (some "pw") "/mnt" "pw"
      (by decide) (by decide) rfl rfl).1 rfl (by decide),
   (c10_env_password ⟨some "/mnt", none, none, false⟩ none "/mnt" "pw"
      (by decide) (by decide) rfl rfl).2 (Or.inl rfl)⟩

/-- C8: for every cipher enumeration with at least two variants (the
first of which has a nonempty name, as all variant names do), the help
string built by the fold over `Cipher::iter` in `async_main` is not the
listing of each variant exactly once separated by ", ": each fold step
appends the accumulator to itself before appending the next name, so the
result starts with the first variant name twice. -/
theorem c8_cipher_help_duplicated (x1 x2 : List Char) (rest : List (List Char))
    (h1 : x1 ≠ []) :
    cipherHelpFold (x1 :: x2 :: rest) ≠ sepListing (x1 :: x2 :: rest) ∧
    ∃ t, cipherHelpFold (x1 :: x2 :: rest) = x1 ++ x1 ++ t := by
  have hx : ¬(x1.length = 0) := by simpa using h1
  have e1 := cipherHelpFold_cons_cons x1 x2 rest h1
  constructor
  · intro he
    have e2 : sepListing (x1 :: x2 :: rest) =
        rest.foldl (fun acc y => acc ++ ", ".data ++ y) (x1 ++ ", ".data ++ x2) := by
      simp [sepListing, List.foldl_cons]
    have hlt := foldl_sep_len_lt rest (x1 ++ (x1 ++ ", ".data ++ x2))
      (x1 ++ ", ".data ++ x2) (by simp [List.length_append]; omega)
    rw [e1, e2] at he
    rw [he] at hlt
    omega
  · obtain ⟨t, ht⟩ := foldl_extends
      (fun acc x => acc ++ (if acc.length ≠ 0 then ", ".data else []) ++ x) rest
      (x1 ++ (x1 ++ ", ".data ++ x2))
    refine ⟨", ".data ++ x2 ++ t, ?_⟩
    rw [e1, ht]
    simp only [if_pos hx, List.append_assoc]

/-- Witness for C8: with the two cipher variant names the help string is
"ChaCha20ChaCha20, Aes256Gcm", not "ChaCha20, Aes256Gcm". -/
theorem c8_cipher_help_duplicated_witness :
    cipherHelpFold Cipher.names ≠ sepListing Cipher.names ∧
    ∃ t, cipherHelpFold Cipher.names =
      "ChaCha20".data ++ "ChaCha20".data ++ t :=
  c8_cipher_help_duplicated "ChaCha20".data "Aes256Gcm".data [] (by decide)

/-- C7: write at least 300000 bytes, then truncate to 100 bytes: the
subsequent `read(inode, 0, 100)` returns exactly the first 100 bytes
originally written, every chunk lying entirely past the new boundary is
removed, the chunk straddling the boundary (when the boundary is not
chunk-aligned) is re-encrypted with zero-padding beyond the cut point,
and any read at or beyond offset 100 returns empty per the declared
size. -/
theorem c7_truncate_small (key cs inode : ℕ) (st : FileState) (data : List ℕ)
    (hcs : 0 < cs) (hWF : WF key cs st) (hlen : 300000 ≤ data.length) :
    ∃ st1 st2, write key cs inode st 0 data = some st1 ∧
      truncate key cs inode st1 100 = some st2 ∧
      read key cs st2 0 100 = some (data.take 100) ∧
      (∀ i, 100 ≤ i * cs → st2.chunks i = none) ∧
      (100 % cs ≠ 0 → ∃ c pt, st2.chunks (100 / cs) = some c ∧
        decryptChunk key c = some pt ∧
        ∀ j, j < cs → 100 ≤ 100 / cs * cs + j → pt.getD j 0 = 0) ∧
      (∀ off len2, 100 ≤ off → read key cs st2 off len2 = some []) := by
  have hne : data.isEmpty = false := by
    cases data with
    | nil => simp at hlen
    | cons a l => rfl
  have hw : write key cs inode st 0 data =
      some (writtenState key cs inode st 0 data) := write_eq hWF hne
  have hWF1 : WF key cs (writtenState key cs inode st 0 data) :=
    WF_writtenState hWF
  have hsz1 : (writtenState key cs inode st 0 data).size =
      max st.size (0 + data.length) := rfl
  have hsz1' : ¬(writtenState key cs inode st 0 data).size ≤ 100 := by omega
  have hb1 : ∀ p, p < 100 →
      byteAt key cs (writtenState key cs inode st 0 data) p =
        some (data.getD p 0) := by
    intro p hp
    have h := byteAt_writtenState key cs inode st 0 data hcs
      (p := p) (by omega) (by omega)
    simpa using h
  by_cases hmod : 100 % cs = 0
  · refine ⟨writtenState key cs inode st 0 data,
      truncDrop cs (writtenState key cs inode st 0 data) 100, hw,
      truncate_eq_drop_aligned hsz1' hmod, ?_, ?_, ?_, ?_⟩
    · exact read_first100 key cs (writtenState key cs inode st 0 data) _ data rfl
        (by omega) (fun p hp => byteAt_truncDrop hp) hb1
    · intro i hi
      exact chunks_truncDrop_past hi
    · intro h
      exact absurd hmod h
    · exact read_past_size key cs _ rfl
  · have hin : writeA cs st 0 ≤ 100 / cs ∧
        100 / cs ≤ writeB cs 0 data.length := by
      constructor
      · unfold writeA
        rw [Nat.min_zero, Nat.zero_div]
        exact Nat.zero_le _
      · unfold writeB
        exact Nat.div_le_div_right (by omega)
    have hch1 : (writtenState key cs inode st 0 data).chunks (100 / cs) =
        some (mkEncChunk key (nonceFor inode (100 / cs) st.ver)
          (newChunkPt key cs st 0 data (100 / cs))) :=
      chunks_writtenState_in key inode hin
    have hdec1 : decryptChunk key (mkEncChunk key (nonceFor inode (100 / cs) st.ver)
        (newChunkPt key cs st 0 data (100 / cs))) =
        some (newChunkPt key cs st 0 data (100 / cs)) :=
      decryptChunk_mkEncChunk key _ _
    refine ⟨writtenState key cs inode st 0 data,
      truncStraddle key cs inode (writtenState key cs inode st 0 data) 100
        (newChunkPt key cs st 0 data (100 / cs)), hw,
      truncate_eq_straddle hsz1' hmod hch1 hdec1, ?_, ?_, ?_, ?_⟩
    · exact read_first100 key cs (writtenState key cs inode st 0 data) _ data rfl
        (by omega) (fun p hp => byteAt_truncStraddle hcs hp hch1 hdec1) hb1
    · intro i hi
      exact chunks_truncStraddle_past hi
    · intro _
      have hstr : 100 / cs * cs < 100 := by
        refine lt_of_le_of_ne (Nat.div_mul_le_self 100 cs) ?_
        intro h
        rw [Nat.mul_comm] at h
        have hdm := Nat.div_add_mod 100 cs
        omega
      refine ⟨mkEncChunk key
          (nonceFor inode (100 / cs) (writtenState key cs inode st 0 data).ver)
          (truncChunkPt cs 100 (newChunkPt key cs st 0 data (100 / cs))),
        truncChunkPt cs 100 (newChunkPt key cs st 0 data (100 / cs)), ?_, ?_, ?_⟩
      · unfold truncStraddle
        dsimp only
        rw [if_neg (by omega), if_pos rfl]
      · exact decryptChunk_mkEncChunk key _ _
      · intro j hj hcut
        rw [getD_truncChunkPt _ hj, if_pos hcut]
    · exact read_past_size key cs _ rfl

/-- Witness for C7: 300000 zero bytes with chunk size 7 (so the boundary
at 100 is not chunk-aligned and the straddling chunk is rewritten). -/
theorem c7_truncate_small_witness :
    0 < 7 ∧ WF 0 7 emptyFS ∧ 300000 ≤ (zeros 300000).length ∧
    ∃ st1 st2, write 0 7 0 emptyFS 0 (zeros 300000) = some st1 ∧
      truncate 0 7 0 st1 100 = some st2 ∧
      read 0 7 st2 0 100 = some ((zeros 300000).take 100) ∧
      (∀ i, 100 ≤ i * 7 → st2.chunks i = none) ∧
      (100 % 7 ≠ 0 → ∃ c pt, st2.chunks (100 / 7) = some c ∧
        decryptChunk 0 c = some pt ∧
        ∀ j, j < 7 → 100 ≤ 100 / 7 * 7 + j → pt.getD j 0 = 0) ∧
      (∀ off len2, 100 ≤ off → read 0 7 st2 off len2 = some []) :=
  ⟨by decide, wf_emptyFS 0 7,
   by unfold zeros; rw [List.length_replicate],
   c7_truncate_small 0 7 0 emptyFS (zeros 300000) (by decide) (wf_emptyFS 0 7)
     (by unfold zeros; rw [List.length_replicate])⟩

/-- C5: nonce uniqueness is an invariant of every write, overwrite and
truncate: over any sequence of operations from the initial state, the
(key, nonce) pair of every chunk encryption is distinct — each nonce is
derived deterministically from the inode number, the chunk index and the
per-write version counter, which increments on every encrypting
operation — so the same (key, nonce) pair is never used to encrypt two
different chunk contents, including partial-chunk read-modify-writes. -/
theorem c5_nonce_uniqueness (key cs inode : ℕ) (ops : List FsOp)
    (st2 : FileState) (log : List (ℕ × List ℕ))
    (h : runOps key cs inode emptyFS ops = some (st2, log)) :
    List.Pairwise (fun e1 e2 => e1.1 ≠ e2.1) log ∧
    ∀ e1, e1 ∈ log → ∀ e2, e2 ∈ log → e1.1 = e2.1 → e1.2 = e2.2 := by
  obtain ⟨-, -, hp⟩ := runOps_log key cs inode ops emptyFS st2 log h
  refine ⟨hp, ?_⟩
  intro e1 h1 e2 h2 heq
  by_cases hee : e1 = e2
  · rw [hee]
  · exact absurd heq (List.Pairwise.forall (fun a b hab => hab.symm) hp h1 h2 hee)

/-- Witness for C5: one write of one byte from the empty state. -/
theorem c5_nonce_uniqueness_witness :
    List.Pairwise (fun e1 e2 => e1.1 ≠ e2.1) (writeLog 0 1 0 emptyFS 0 [1] ++ []) ∧
    ∀ e1, e1 ∈ writeLog 0 1 0 emptyFS 0 [1] ++ [] →
      ∀ e2, e2 ∈ writeLog 0 1 0 emptyFS 0 [1] ++ [] →
        e1.1 = e2.1 → e1.2 = e2.2 :=
  c5_nonce_uniqueness 0 1 0 [.writeOp 0 [1]] (writtenState 0 1 0 emptyFS 0 [1])
    (writeLog 0 1 0 emptyFS 0 [1] ++ []) rfl

end EncFs
